import Mathlib

/-!
Shallow embedding of the Traffic-Simulator core (src/city.py, src/cars.py,
src/pathfinding.py, src/simulation.py), with theorems checking the
natural-language specification against the code.

Conventions of the embedding:
* A grid coordinate is a pair `(row, col)` of integers, as produced by the
  NumPy indexing `(r, c)` in the source.  Integers (not naturals) are used so
  that the out-of-bounds neighbour `r - 1 = -1` computed by `dijkstra` is
  represented faithfully instead of clamping at 0.
* Traversal costs in the source are `float32` values; every cost arising in
  the program is a non-negative multiple of 0.5 (base costs 1.0, 0.5, 1.5
  and a penalty of 0.5 per car), and all the sums formed stay far below the
  2^24 threshold under which `float32` arithmetic on halves is exact.  Costs
  are therefore embedded exactly, counted in units of one half: the float
  cost `c` is represented as the natural number `2*c`, and `np.inf`
  (impassable) as `⊤` in `WithTop ℕ`.  The representation is an order- and
  addition-isomorphism onto the float values the program manipulates, so
  every comparison in `dijkstra` is mirrored faithfully.
* The pandas `DataFrame` of vehicles is embedded as a `List Car`, one record
  per row, in row order; the per-row batched updates of the source become a
  `List.map` of a per-car function.
* The `while heap:` loop of `dijkstra` and the backwards `prev` walk are
  embedded with an explicit iteration budget (`fuel`).  The budget is a
  proven upper bound on the number of loop iterations the source can perform
  (each pop removes a heap entry and each of the at most `rows*cols`
  visit steps pushes at most 4), so the embedded function exits the loop
  exactly where the source does; lemmas below establish this.
-/

/-- Cell kinds of the city grid (`ROAD = 0`, `BUILDING = 1`, `HIGHWAY = 2`,
`TRAFFIC_LIGHT = 3` in src/city.py). -/
inductive CellKind where
  | road
  | building
  | highway
  | traffic_light
deriving DecidableEq, Repr

/-- A grid coordinate `(row, col)`. -/
abbrev Cell : Type := ℤ × ℤ

/-- The immutable city grid: a square array of cell kinds
(`create_city` in src/city.py produces one of size `GRID_SIZE`). -/
structure CityGrid where
  size : ℕ
  cell : Cell → CellKind

/-- A traversal cost, in units of one half (the float cost `c` is encoded
as `2*c`); `⊤` is `np.inf`. -/
abbrev Cost : Type := WithTop ℕ

/-- `BASE_COSTS` from src/pathfinding.py, in half units:
Road = 1.0 ↦ 2, Highway = 0.5 ↦ 1, TrafficLight = 1.5 ↦ 3,
Building = inf ↦ ⊤. -/
def base_cost : CellKind → Cost
  | .road => (2 : ℕ)
  | .highway => (1 : ℕ)
  | .traffic_light => (3 : ℕ)
  | .building => ⊤

/-- Vehicle status (`'moving'` / `'arrived'` strings in the source). -/
inductive Status where
  | moving
  | arrived
deriving DecidableEq, Repr

/-- One row of the `cars` DataFrame (src/cars.py `create_cars`). -/
structure Car where
  car_id : ℕ
  x : ℤ
  y : ℤ
  dest_x : ℤ
  dest_y : ℤ
  speed : ℤ
  status : Status
  ticks_traveled : ℕ
  distance_to_dest : ℤ
deriving DecidableEq, Repr

/-- Manhattan distance `|dest_x - x| + |dest_y - y|` as computed in
src/cars.py lines 61-64 and src/pathfinding.py lines 206-209. -/
def manhattan (x y dx dy : ℤ) : ℤ := |dx - x| + |dy - y|

/-- `build_congestion_map` (src/pathfinding.py lines 45-62): counts the
vehicles with `status == 'moving'` standing on each cell.  The NumPy array is
embedded as the counting function itself; `np.add.at(congestion, (ys, xs), 1)`
increments entry `(y, x)` once per moving car. -/
def build_congestion_map (cars : List Car) : Cell → ℕ := fun p =>
  (cars.filter fun c => c.status = .moving ∧ c.y = p.1 ∧ c.x = p.2).length

/-- The cost surface handed to `dijkstra`: a `rows × cols` array of costs
(`cost_grid` in the source, whose shape is read back by `dijkstra`). -/
structure CostGrid where
  rows : ℕ
  cols : ℕ
  cost : Cell → Cost

/-- `build_cost_grid` (src/pathfinding.py lines 15-42): start from the base
terrain cost of each cell, add `0.5 × congestion` everywhere — one half
unit per car, so `+ congestion_map p` in the half-unit encoding (NumPy
`inf` absorbs the addition, mirrored by `⊤ + x = ⊤`) — then re-pin every
Building cell to `inf`. -/
def build_cost_grid (grid : CityGrid) (congestion_map : Cell → ℕ) : CostGrid :=
  { rows := grid.size
    cols := grid.size
    cost := fun p =>
      let with_base : Cost := base_cost (grid.cell p)
      let with_congestion : Cost := with_base + (congestion_map p : ℕ)
      if grid.cell p = .building then ⊤ else with_congestion }

/-! ## Dijkstra (src/pathfinding.py lines 65-135) -/

/-- In-bounds test: the guard `0 <= nr < rows and 0 <= nc < cols`. -/
def inB (g : CostGrid) (p : Cell) : Prop :=
  0 ≤ p.1 ∧ p.1 < (g.rows : ℤ) ∧ 0 ≤ p.2 ∧ p.2 < (g.cols : ℤ)

instance (g : CostGrid) (p : Cell) : Decidable (inB g p) := by
  unfold inB; infer_instance

/-- The four movement directions, in source order. -/
def dirs : List Cell := [(-1, 0), (1, 0), (0, -1), (0, 1)]

/-- All in-bounds cells; stands for the index set of the `visited` array. -/
def allCells (g : CostGrid) : List Cell :=
  (List.range g.rows).flatMap fun r =>
    (List.range g.cols).map fun c : ℕ => (((r : ℕ) : ℤ), ((c : ℕ) : ℤ))

/-- Strict lexicographic order on heap entries `(cost, (row, col))`, the
order in which Python's `heapq` compares the tuples `(cost, r, c)`
(the half-unit encoding of costs is strictly monotone, so it induces the
same order as the float costs). -/
def entryLt (a b : ℕ × Cell) : Prop :=
  a.1 < b.1 ∨ (a.1 = b.1 ∧ (a.2.1 < b.2.1 ∨ (a.2.1 = b.2.1 ∧ a.2.2 < b.2.2)))

instance (a b : ℕ × Cell) : Decidable (entryLt a b) := by
  unfold entryLt; infer_instance

/-- Pop the least entry (in `heapq`'s tuple order) from a bag of heap
entries, returning it together with the remaining entries. -/
def popMin : List (ℕ × Cell) → Option ((ℕ × Cell) × List (ℕ × Cell))
  | [] => none
  | e :: es =>
    match popMin es with
    | none => some (e, [])
    | some (m, rest) => if entryLt m e then some (m, e :: rest) else some (e, es)

/-- The mutable state of the `dijkstra` search loop.  `visited` is stored in
complement form: `unvisited` holds exactly the in-bounds cells whose
`visited` flag is still `False` (the loop pops cells and flips the flag). -/
structure DState where
  unvisited : List Cell
  dist : Cell → Cost
  prev : Cell → Option Cell
  heap : List (ℕ × Cell)

/-- Relaxation of one direction `d` out of the just-finalized cell `p`
with accumulated cost `ccost` — the body of the `for dr, dc in directions`
loop: skip out-of-bounds, skip visited and impassable neighbours, and on
`new_cost < dist[nr, nc]` update `dist`/`prev` and push.  The source's
locals `nr, nc` and `new_cost` are inlined:
`(nr, nc) = (p.1 + d.1, p.2 + d.2)` and
`new_cost = ccost + cost_grid[nr, nc]`. -/
def relaxDir (g : CostGrid) (ccost : ℕ) (p : Cell) (st : DState) (d : Cell) : DState :=
  if ¬ inB g (p.1 + d.1, p.2 + d.2) then st
  else if (p.1 + d.1, p.2 + d.2) ∉ st.unvisited ∨ g.cost (p.1 + d.1, p.2 + d.2) = ⊤ then st
  else if ((ccost + (g.cost (p.1 + d.1, p.2 + d.2)).untop' 0 : ℕ) : Cost)
      < st.dist (p.1 + d.1, p.2 + d.2) then
    { st with
      dist := fun q => if q = (p.1 + d.1, p.2 + d.2)
        then ((ccost + (g.cost (p.1 + d.1, p.2 + d.2)).untop' 0 : ℕ) : Cost) else st.dist q
      prev := fun q => if q = (p.1 + d.1, p.2 + d.2) then some p else st.prev q
      heap := st.heap
        ++ [((ccost + (g.cost (p.1 + d.1, p.2 + d.2)).untop' 0 : ℕ), (p.1 + d.1, p.2 + d.2))] }
  else st

/-- All four relaxations, in source order. -/
def relaxAll (g : CostGrid) (ccost : ℕ) (p : Cell) (st : DState) : DState :=
  dirs.foldl (relaxDir g ccost p) st

/-- The `while heap:` loop of `dijkstra`.  `fuel` is an upper bound on the
remaining number of loop iterations; `dijkstra` below supplies a bound that
provably never runs out (each iteration pops one heap entry, and at most
`rows*cols` iterations push, each pushing at most 4 entries), so the
recursion exits exactly where the source loop does. -/
def dloop (g : CostGrid) (endp : Cell) : ℕ → DState → DState
  | 0, st => st
  | fuel + 1, st =>
    match popMin st.heap with
    | none => st
    | some ((ccost, p), rest) =>
      if p ∈ st.unvisited then
        let st1 : DState := { st with unvisited := st.unvisited.erase p, heap := rest }
        if p = endp then st1
        else dloop g endp fuel (relaxAll g ccost p st1)
      else dloop g endp fuel { st with heap := rest }

/-- The backwards walk through `prev` from `end` to `start`
(src/pathfinding.py lines 120-134), accumulating the reversed path.  The
walk in the source runs until it meets `start`; `fuel` bounds its length by
the number of grid cells, which the invariants below prove sufficient. -/
def walkPrev (prev : Cell → Option Cell) (start : Cell) :
    ℕ → Cell → List Cell → Option (List Cell)
  | 0, _, _ => none
  | fuel + 1, p, acc =>
    if p = start then some (p :: acc)
    else
      match prev p with
      | none => none
      | some q => walkPrev prev start fuel q (p :: acc)

/-- The state before the first loop iteration: no cell visited,
`dist[start] = 0.0`, all `prev` entries unset, heap `[(0.0, start)]`. -/
def initState (g : CostGrid) (start : Cell) : DState :=
  { unvisited := allCells g
    dist := fun p => if p = start then ((0 : ℕ) : Cost) else ⊤
    prev := fun _ => none
    heap := [((0 : ℕ), start)] }

/-- `dijkstra` (src/pathfinding.py lines 65-135): uniform-cost search from
`start`, early exit when `endp` is finalized, empty path when
`dist[end] == np.inf`, otherwise the reconstructed `start..end` path. -/
def dijkstra (g : CostGrid) (start endp : Cell) : List Cell :=
  let stf := dloop g endp (4 * (g.rows * g.cols) + 1) (initState g start)
  if stf.dist endp = ⊤ then []
  else
    match walkPrev stf.prev start (g.rows * g.cols + 1) endp [] with
    | none => []
    | some path => path

/-! ## Motion engine (src/pathfinding.py lines 138-214) -/

/-- The path cache `{car_id: [(row, col), ...]}`, embedded as a lookup
function (`car_id not in paths` becomes `pm id = none`). -/
abbrev PathMap : Type := ℕ → Option (List Cell)

/-- The scan `for i, step in enumerate(path): if step == current_pos and
i + 1 < len(path): return path[i + 1]` — the next waypoint after the first
occurrence of `pos` that has a successor, if any. -/
def find_next : List Cell → Cell → Option Cell
  | a :: b :: rest, pos => if a = pos then some b else find_next (b :: rest) pos
  | _, _ => none

/-- `get_next_step` (src/pathfinding.py lines 138-153). -/
def get_next_step (path : List Cell) (current_pos : Cell) : Cell :=
  if h : path.length < 2 then current_pos
  else
    match find_next path current_pos with
    | some nxt => nxt
    | none => path.get ⟨1, by omega⟩

/-- The per-car body of `move_cars_with_paths` (src/pathfinding.py lines
179-214): a moving car with a cached path relocates to
`get_next_step path (y, x)`, a moving car without one keeps its position;
every moving car then gets `ticks_traveled += 1`, a recomputed Manhattan
`distance_to_dest`, and `status = 'arrived'` when that distance is 0.
Arrived cars are left untouched (they are outside the `moving` mask). -/
def move_one (pm : PathMap) (car : Car) : Car :=
  if car.status = .moving then
    let next_step : Cell :=
      match pm car.car_id with
      | none => (car.y, car.x)
      | some path => get_next_step path (car.y, car.x)
    let d : ℤ := manhattan next_step.2 next_step.1 car.dest_x car.dest_y
    { car with
      x := next_step.2
      y := next_step.1
      ticks_traveled := car.ticks_traveled + 1
      distance_to_dest := d
      status := if d = 0 then .arrived else .moving }
  else car

/-- `move_cars_with_paths` (src/pathfinding.py lines 179-214); the `grid`
argument of the source function is never read. -/
def move_cars_with_paths (cars : List Car) (pm : PathMap) (_grid : CityGrid) : List Car :=
  cars.map (move_one pm)

/-- `compute_all_paths` (src/pathfinding.py lines 155-176): one `dijkstra`
call per moving car whose start differs from its destination, caching only
non-empty results.  Later insertions shadow earlier ones, as for a Python
dict. -/
def compute_all_paths (cars : List Car) (grid : CityGrid) (congestion_map : Cell → ℕ) :
    PathMap :=
  let cost_grid := build_cost_grid grid congestion_map
  (cars.filter fun c => c.status = .moving).foldl
    (fun acc car =>
      let s : Cell := (car.y, car.x)
      let e : Cell := (car.dest_y, car.dest_x)
      if s = e then acc
      else
        match dijkstra cost_grid s e with
        | [] => acc
        | p :: ps => fun id => if id = car.car_id then some (p :: ps) else acc id)
    (fun _ => none)

/-! ## Spawning (src/cars.py lines 23-72) -/

/-- `create_cars` (src/cars.py): the randomly sampled start and destination
cells (`valid_cells[start_indices]`, `valid_cells[dest_indices]`, each a
`(row, col)` pair) are passed in explicitly, standing for the outcome of
`np.random.choice`.  Cars are built with dense ids, speed 2 on a highway
spawn cell, `status = 'moving'`, and the initial Manhattan distance; cars
with `distance_to_dest == 0` are dropped and ids are reassigned densely.
`spawn_row` builds the row at index `isd.1` for the start/destination pair
`isd.2`. -/
def spawn_row (grid : CityGrid) (isd : ℕ × (Cell × Cell)) : Car :=
  { car_id := isd.1
    x := isd.2.1.2
    y := isd.2.1.1
    dest_x := isd.2.2.2
    dest_y := isd.2.2.1
    speed := if grid.cell isd.2.1 = .highway then 2 else 1
    status := .moving
    ticks_traveled := 0
    distance_to_dest := manhattan isd.2.1.2 isd.2.1.1 isd.2.2.2 isd.2.2.1 }

def create_cars (grid : CityGrid) (starts dests : List Cell) : List Car :=
  let cars0 : List Car := (starts.zip dests).enum.map (spawn_row grid)
  let kept := cars0.filter fun c => 0 < c.distance_to_dest
  kept.enum.map fun ic => { ic.2 with car_id := ic.1 }

/-! ## Simulation loop (src/simulation.py) -/

/-- `RUSH_HOUR_TICKS[0]` from src/simulation.py. -/
def RUSH_HOUR_TICK : ℕ := 20

/-- `REPATH_EVERY` from src/simulation.py. -/
def REPATH_EVERY : ℕ := 5

/-- `spawn_rush_hour_cars` (src/simulation.py lines 32-46): create a fresh
batch via `create_cars`, shift its ids past `cars['car_id'].max()`, and
append.  (On an empty DataFrame the Python `max()` is NaN; the embedding
uses 0 there, and every theorem about ids quantifies over the existing
cars, which is vacuous in that case.) -/
def spawn_rush_hour_cars (cars : List Car) (grid : CityGrid) (starts dests : List Cell) :
    List Car :=
  let new_cars := create_cars grid starts dests
  let maxId : ℕ := (cars.map Car.car_id).foldr max 0
  cars ++ new_cars.map fun c => { c with car_id := c.car_id + maxId + 1 }

/-- The mutable state threaded through `run_simulation`'s loop. -/
structure SimState where
  cars : List Car
  paths : PathMap

/-- One iteration of the `for tick in range(max_ticks)` loop of
`run_simulation` (src/simulation.py lines 70-95), minus the logging:
congestion from the pre-spawn car positions, rush-hour injection when
`tick == RUSH_HOUR_TICKS[0]`, repathing when `tick % REPATH_EVERY == 0`,
then one motion step.  `rush_starts`/`rush_dests` stand for the samples the
spawner would draw at the rush-hour tick. -/
def sim_tick (grid : CityGrid) (rush_starts rush_dests : List Cell) (tick : ℕ)
    (s : SimState) : SimState :=
  let congestion_map := build_congestion_map s.cars
  let cars1 :=
    if tick = RUSH_HOUR_TICK then spawn_rush_hour_cars s.cars grid rush_starts rush_dests
    else s.cars
  let paths1 :=
    if tick % REPATH_EVERY = 0 then compute_all_paths cars1 grid congestion_map
    else s.paths
  let cars2 := move_cars_with_paths cars1 paths1 grid
  { cars := cars2, paths := paths1 }

/-- The state after the loop has processed ticks `0, 1, ..., n-1`.  (The
source loop may additionally break early once no car is moving; a break
leaves the state unchanged from that point on, so every state the source
ever holds is `run_ticks` at some `n`.) -/
def run_ticks (grid : CityGrid) (rush_starts rush_dests : List Cell) :
    ℕ → SimState → SimState
  | 0, s => s
  | n + 1, s => sim_tick grid rush_starts rush_dests n (run_ticks grid rush_starts rush_dests n s)

/-! ## Reachability notions for the path planner

`dstep g a b` is one legal move of the search: `b` is one of the four
neighbours of `a`, in bounds, and enterable (finite cost).  The cost of the
*departed* cell plays no role — `dijkstra` charges the entry cost of the
destination cell only, so a route may leave an impassable start cell. -/

def dstep (g : CostGrid) (a b : Cell) : Prop :=
  (∃ d ∈ dirs, b = (a.1 + d.1, a.2 + d.2)) ∧ inB g b ∧ g.cost b ≠ ⊤

/-- `e` is reachable from `s` by moves that enter only passable in-bounds
cells (the start cell itself need not be passable). -/
def Reaches (g : CostGrid) (s e : Cell) : Prop := Relation.ReflTransGen (dstep g) s e

/-- The claim's notion of a "passable 4-connected route between start and
end": a route *all* of whose cells, the start included, are passable. -/
def PassReaches (g : CostGrid) (s e : Cell) : Prop :=
  g.cost s ≠ ⊤ ∧ Relation.ReflTransGen (dstep g) s e

/-- The chain of `prev` links from a cell down to `start`: `PrevChain prev
start p l` says `l = [p, prev p, prev (prev p), ..., start]`, which is the
list the reconstruction loop of `dijkstra` traverses. -/
inductive PrevChain (prev : Cell → Option Cell) (start : Cell) : Cell → List Cell → Prop
  | base : PrevChain prev start start [start]
  | step {p q : Cell} {l : List Cell} :
      p ≠ start → prev p = some q → PrevChain prev start q l →
      PrevChain prev start p (p :: l)

/-- `q`'s visited flag is set (its cell was finalized, or it lies outside
the grid and has no flag at all — such cells are never relaxed). -/
def Visited (st : DState) (q : Cell) : Prop := q ∉ st.unvisited

/-- The loop invariant of the search, in the style of verified-Dijkstra
`StateInv` developments, restricted to what reachability needs:
* `nodup`/`sub` — the unvisited pool is duplicate-free and in-bounds;
* `dist_start` — the start keeps a finite tentative distance;
* `heap_fin` — every heap entry points at a cell with finite distance;
* `frontier` — every unvisited in-bounds cell with finite distance still
  has a heap entry (so an empty heap means all discovered cells are final);
* `closed` — a visited cell has finite distance and so do all its passable
  in-bounds neighbours (they were relaxed when it was popped);
* `sound` — finite distance implies reachability from the start;
* `chains` — every discovered cell has a duplicate-free, in-bounds `prev`
  chain down to the start whose tail is already visited. -/
structure SearchInv (g : CostGrid) (start : Cell) (st : DState) : Prop where
  nodup : st.unvisited.Nodup
  sub : ∀ q ∈ st.unvisited, inB g q
  dist_start : st.dist start ≠ ⊤
  heap_fin : ∀ e ∈ st.heap, st.dist e.2 ≠ ⊤
  frontier : ∀ q, inB g q → st.dist q ≠ ⊤ → q ∈ st.unvisited → ∃ e ∈ st.heap, e.2 = q
  closed : ∀ u, inB g u → Visited st u →
    st.dist u ≠ ⊤ ∧
    ∀ d ∈ dirs, inB g (u.1 + d.1, u.2 + d.2) → g.cost (u.1 + d.1, u.2 + d.2) ≠ ⊤ →
      st.dist (u.1 + d.1, u.2 + d.2) ≠ ⊤
  sound : ∀ q, inB g q → st.dist q ≠ ⊤ → Reaches g start q
  chains : ∀ q, inB g q → st.dist q ≠ ⊤ →
    ∃ l, PrevChain st.prev start q l ∧ l.Nodup ∧ (∀ x ∈ l, inB g x) ∧
      ∀ x ∈ l.tail, Visited st x

/-- The invariant that holds *during* the relaxation of the just-popped
cell `p`: every `SearchInv` field except that `closed` is only guaranteed
for visited cells other than `p` (whose neighbours are being relaxed right
now), plus the standing facts about `p` itself. -/
structure PreInv (g : CostGrid) (start p : Cell) (st : DState) : Prop where
  nodup : st.unvisited.Nodup
  sub : ∀ q ∈ st.unvisited, inB g q
  dist_start : st.dist start ≠ ⊤
  heap_fin : ∀ e ∈ st.heap, st.dist e.2 ≠ ⊤
  frontier : ∀ q, inB g q → st.dist q ≠ ⊤ → q ∈ st.unvisited → ∃ e ∈ st.heap, e.2 = q
  closed_ne : ∀ u, inB g u → Visited st u → u ≠ p →
    st.dist u ≠ ⊤ ∧
    ∀ d ∈ dirs, inB g (u.1 + d.1, u.2 + d.2) → g.cost (u.1 + d.1, u.2 + d.2) ≠ ⊤ →
      st.dist (u.1 + d.1, u.2 + d.2) ≠ ⊤
  sound : ∀ q, inB g q → st.dist q ≠ ⊤ → Reaches g start q
  chains : ∀ q, inB g q → st.dist q ≠ ⊤ →
    ∃ l, PrevChain st.prev start q l ∧ l.Nodup ∧ (∀ x ∈ l, inB g x) ∧
      ∀ x ∈ l.tail, Visited st x
  p_fin : st.dist p ≠ ⊤
  p_vis : Visited st p
  p_inB : inB g p

/-! ## Concrete instances used by witnesses and counterexamples -/

/-- A 2×2 grid with a building at `(0,0)` and roads elsewhere. -/
def gridC5 : CityGrid := ⟨2, fun p => if p = (0, 0) then .building else .road⟩

/-- A congestion map putting 7 cars on the building cell and 3 on `(0,1)`. -/
def congC5 : Cell → ℕ := fun p => if p = (0, 0) then 7 else if p = (0, 1) then 3 else 0

/-- A 2×2 all-road city. -/
def gridW : CityGrid := ⟨2, fun _ => .road⟩

/-- A single moving car at `(0,0)` heading to `(0,1)` (column 1 of row 0). -/
def carW : Car :=
  { car_id := 0, x := 0, y := 0, dest_x := 1, dest_y := 0, speed := 1,
    status := .moving, ticks_traveled := 0, distance_to_dest := 1 }

/-- A one-car simulation state with an empty path cache. -/
def stateW : SimState := { cars := [carW], paths := fun _ => none }

/-- A car that has already arrived (used as pre-existing population for the
rush-hour claims). -/
def carArr : Car :=
  { car_id := 0, x := 1, y := 0, dest_x := 1, dest_y := 0, speed := 1,
    status := .arrived, ticks_traveled := 3, distance_to_dest := 0 }

/-- The path cache used by the C7 witness: car 0 ↦ `[(0,0), (0,1)]`. -/
def pmC7w : PathMap := fun id => if id = 0 then some [(0, 0), (0, 1)] else none

/-- The path cache used by the C7 counterexample: car 0 ↦ a path that
revisits `(0,1)`. -/
def pmC7x : PathMap := fun id => if id = 0 then some [(0, 0), (0, 1), (0, 2), (0, 1)] else none

/-- A 1×1 cost grid whose single cell is impassable. -/
def gridC4 : CostGrid := ⟨1, 1, fun _ => ⊤⟩

/-! ## Helper lemmas about the motion engine -/

theorem move_one_of_arrived (pm : PathMap) (car : Car) (h : car.status = .arrived) :
    move_one pm car = car := by
  unfold move_one
  rw [h]
  simp

theorem move_one_status_iff (pm : PathMap) (car : Car) :
    (move_one pm car).status = .arrived ↔
      car.status = .arrived ∨ (move_one pm car).distance_to_dest = 0 := by
  unfold move_one
  cases hs : car.status with
  | arrived => simp [hs]
  | moving =>
    simp only [reduceCtorEq, false_or, if_pos rfl]
    by_cases hd :
        manhattan
          (match pm car.car_id with
            | none => (car.y, car.x)
            | some path => get_next_step path (car.y, car.x)).2
          (match pm car.car_id with
            | none => (car.y, car.x)
            | some path => get_next_step path (car.y, car.x)).1
          car.dest_x car.dest_y = 0 <;>
      simp [hd]

theorem move_one_ticks_of_moving (pm : PathMap) (car : Car) (h : car.status = .moving) :
    (move_one pm car).ticks_traveled = car.ticks_traveled + 1 := by
  unfold move_one
  rw [h]
  simp

theorem move_one_stay_of_no_path (pm : PathMap) (car : Car) (h : car.status = .moving)
    (hp : pm car.car_id = none) :
    (move_one pm car).x = car.x ∧ (move_one pm car).y = car.y := by
  unfold move_one
  rw [h, hp]
  simp

theorem move_one_pos_of_path (pm : PathMap) (car : Car) (path : List Cell)
    (h : car.status = .moving) (hp : pm car.car_id = some path) :
    ((move_one pm car).y, (move_one pm car).x) = get_next_step path (car.y, car.x) := by
  unfold move_one
  rw [h, hp]
  simp

/-- The cars list after one simulation tick: position `i` holds the moved
image of the car that was at position `i` (rush-hour injection only appends
to the list, so indices below the old length are stable). -/
theorem spawn_rush_hour_cars_getElem (cars : List Car) (grid : CityGrid) (ss ds : List Cell)
    (i : ℕ) (h : i < cars.length) :
    (spawn_rush_hour_cars cars grid ss ds)[i]? = cars[i]? := by
  unfold spawn_rush_hour_cars
  exact List.getElem?_append_left h

theorem sim_tick_cars_getElem (grid : CityGrid) (rs rd : List Cell) (t : ℕ) (s : SimState)
    (i : ℕ) (c : Car) (hc : s.cars[i]? = some c) :
    (sim_tick grid rs rd t s).cars[i]?
      = some (move_one (sim_tick grid rs rd t s).paths c) := by
  have hi : i < s.cars.length := by
    by_contra hlt
    rw [List.getElem?_eq_none (by omega)] at hc
    exact Option.noConfusion hc
  by_cases ht : t = RUSH_HOUR_TICK
  · subst ht
    unfold sim_tick move_cars_with_paths
    simp only [eq_self_iff_true, if_true, List.getElem?_map]
    rw [spawn_rush_hour_cars_getElem s.cars grid rs rd i hi, hc]
    rfl
  · unfold sim_tick move_cars_with_paths
    simp only [if_neg ht, List.getElem?_map]
    rw [hc]
    rfl

/-! ## Helper lemmas about `find_next` / `get_next_step` -/

theorem find_next_eq_some (path : List Cell) (pos : Cell) (i : ℕ)
    (hi : i + 1 < path.length) (hp : path.get ⟨i, by omega⟩ = pos)
    (hfirst : ∀ j : ℕ, ∀ hj : j < i, path.get ⟨j, by omega⟩ ≠ pos) :
    find_next path pos = some (path.get ⟨i + 1, hi⟩) := by
  induction path generalizing i with
  | nil => simp at hi
  | cons a rest ih =>
    cases rest with
    | nil => simp at hi
    | cons b rest' =>
      cases i with
      | zero =>
        have hp0 : a = pos := hp
        unfold find_next
        simp [hp0]
      | succ k =>
        have ha : a ≠ pos := hfirst 0 (Nat.succ_pos k)
        unfold find_next
        rw [if_neg ha]
        have hk : k + 1 < (b :: rest').length := by
          simpa [Nat.succ_lt_succ_iff] using hi
        have hp' : (b :: rest').get ⟨k, by omega⟩ = pos := hp
        have hfirst' : ∀ j : ℕ, ∀ hj : j < k, (b :: rest').get ⟨j, by omega⟩ ≠ pos :=
          fun j hj => hfirst (j + 1) (Nat.succ_lt_succ hj)
        exact ih k hk hp' hfirst'

theorem find_next_eq_none (path : List Cell) (pos : Cell)
    (h : ∀ i : ℕ, ∀ hi : i + 1 < path.length, path.get ⟨i, by omega⟩ ≠ pos) :
    find_next path pos = none := by
  induction path with
  | nil => rfl
  | cons a rest ih =>
    cases rest with
    | nil => rfl
    | cons b rest' =>
      have ha : a ≠ pos := h 0 (by simp)
      unfold find_next
      rw [if_neg ha]
      exact ih fun i hi => h (i + 1) (by simpa [Nat.succ_lt_succ_iff] using hi)

/-! ## Helper lemmas about the search state -/

theorem mem_allCells (g : CostGrid) (p : Cell) : p ∈ allCells g ↔ inB g p := by
  obtain ⟨p1, p2⟩ := p
  unfold allCells inB
  rw [List.mem_flatMap]
  constructor
  · rintro ⟨r, hr, hmem⟩
    rw [List.mem_range] at hr
    rw [List.mem_map] at hmem
    obtain ⟨c, hc, heq⟩ := hmem
    rw [List.mem_range] at hc
    cases heq
    refine ⟨by omega, by omega, by omega, by omega⟩
  · rintro ⟨h1, h2, h3, h4⟩
    refine ⟨p1.toNat, ?_, ?_⟩
    · rw [List.mem_range]; omega
    · rw [List.mem_map]
      refine ⟨p2.toNat, ?_, ?_⟩
      · rw [List.mem_range]; omega
      · have e1 : ((p1.toNat : ℕ) : ℤ) = p1 := by omega
        have e2 : ((p2.toNat : ℕ) : ℤ) = p2 := by omega
        rw [e1, e2]

/-- One unfolding of the search loop (the defining equation of `dloop` in
the successor case). -/
theorem dloop_succ (g : CostGrid) (endp : Cell) (fuel : ℕ) (st : DState) :
    dloop g endp (fuel + 1) st =
      match popMin st.heap with
      | none => st
      | some ((ccost, p), rest) =>
        if p ∈ st.unvisited then
          let st1 : DState := { st with unvisited := st.unvisited.erase p, heap := rest }
          if p = endp then st1
          else dloop g endp fuel (relaxAll g ccost p st1)
        else dloop g endp fuel { st with heap := rest } := rfl

/-- One unfolding of the reconstruction walk. -/
theorem walkPrev_succ (prev : Cell → Option Cell) (start : Cell) (fuel : ℕ) (p : Cell)
    (acc : List Cell) :
    walkPrev prev start (fuel + 1) p acc =
      if p = start then some (p :: acc)
      else
        match prev p with
        | none => none
        | some q => walkPrev prev start fuel q (p :: acc) := rfl

/-! ## Lemmas about `popMin` -/

theorem popMin_eq_none_iff (l : List (ℕ × Cell)) : popMin l = none ↔ l = [] := by
  cases l with
  | nil => simp [popMin]
  | cons e es =>
    constructor
    · intro h
      exfalso
      unfold popMin at h
      cases h2 : popMin es with
      | none =>
        rw [h2] at h
        simp at h
      | some pr =>
        obtain ⟨m, rest⟩ := pr
        rw [h2] at h
        dsimp only at h
        by_cases hlt : entryLt m e
        · rw [if_pos hlt] at h
          simp at h
        · rw [if_neg hlt] at h
          simp at h
    · intro h
      simp at h

theorem popMin_perm (l : List (ℕ × Cell)) (e : ℕ × Cell) (rest : List (ℕ × Cell))
    (h : popMin l = some (e, rest)) : l.Perm (e :: rest) := by
  induction l generalizing e rest with
  | nil => simp [popMin] at h
  | cons a es ih =>
    unfold popMin at h
    cases h2 : popMin es with
    | none =>
      rw [h2] at h
      have hes : es = [] := (popMin_eq_none_iff es).mp h2
      simp only [Option.some.injEq, Prod.mk.injEq] at h
      obtain ⟨he, hr⟩ := h
      subst he
      subst hr
      subst hes
      exact List.Perm.refl _
    | some pr =>
      obtain ⟨m, rest2⟩ := pr
      rw [h2] at h
      dsimp only at h
      by_cases hlt : entryLt m a
      · rw [if_pos hlt] at h
        simp only [Option.some.injEq, Prod.mk.injEq] at h
        obtain ⟨he, hr⟩ := h
        subst he
        subst hr
        have hp := ih m rest2 h2
        exact (hp.cons a).trans (List.Perm.swap m a rest2)
      · rw [if_neg hlt] at h
        simp only [Option.some.injEq, Prod.mk.injEq] at h
        obtain ⟨he, hr⟩ := h
        subst he
        subst hr
        exact List.Perm.refl _

theorem popMin_mem (l : List (ℕ × Cell)) (e : ℕ × Cell) (rest : List (ℕ × Cell))
    (h : popMin l = some (e, rest)) : e ∈ l :=
  (popMin_perm l e rest h).mem_iff.mpr (List.mem_cons_self _ _)

theorem popMin_rest_subset (l : List (ℕ × Cell)) (e : ℕ × Cell) (rest : List (ℕ × Cell))
    (h : popMin l = some (e, rest)) : ∀ x ∈ rest, x ∈ l :=
  fun x hx => (popMin_perm l e rest h).mem_iff.mpr (List.mem_cons_of_mem _ hx)

theorem popMin_mem_rest_of_ne (l : List (ℕ × Cell)) (e : ℕ × Cell)
    (rest : List (ℕ × Cell)) (h : popMin l = some (e, rest)) :
    ∀ x ∈ l, x ≠ e → x ∈ rest := by
  intro x hx hne
  rcases List.mem_cons.mp ((popMin_perm l e rest h).mem_iff.mp hx) with h1 | h2
  · exact absurd h1 hne
  · exact h2

theorem popMin_length (l : List (ℕ × Cell)) (e : ℕ × Cell) (rest : List (ℕ × Cell))
    (h : popMin l = some (e, rest)) : l.length = rest.length + 1 := by
  have := (popMin_perm l e rest h).length_eq
  simpa using this

/-! ## Lemmas about `allCells` -/

theorem allCells_nodup (g : CostGrid) : (allCells g).Nodup := by
  unfold allCells
  rw [List.nodup_flatMap]
  constructor
  · intro r hr
    refine List.Nodup.map ?_ (List.nodup_range _)
    intro c1 c2 hc
    simpa using hc
  · refine List.Pairwise.imp ?_ (List.nodup_range g.rows)
    intro a b hab x hxa hxb
    simp only [List.mem_map] at hxa hxb
    obtain ⟨c1, _, hx1⟩ := hxa
    obtain ⟨c2, _, hx2⟩ := hxb
    apply hab
    have : ((a : ℕ) : ℤ) = ((b : ℕ) : ℤ) := by
      rw [← hx2] at hx1
      exact (Prod.mk.injEq _ _ _ _).mp hx1 |>.1
    exact_mod_cast this

theorem allCells_length (g : CostGrid) : (allCells g).length = g.rows * g.cols := by
  unfold allCells
  rw [List.length_flatMap]
  simp only [Function.comp_def, List.length_map, List.length_range]
  rw [List.map_const', List.sum_replicate, List.length_range, smul_eq_mul]

/-! ## Lemmas about `PrevChain` and the reconstruction walk -/

theorem PrevChain.transfer {prev prev2 : Cell → Option Cell} {start q : Cell}
    {l : List Cell} (h : PrevChain prev start q l)
    (hagree : ∀ x ∈ l, prev2 x = prev x) : PrevChain prev2 start q l := by
  induction h with
  | base => exact .base
  | step hne hp _ ih =>
    exact .step hne (by rw [hagree _ (List.mem_cons_self _ _)]; exact hp)
      (ih fun x hx => hagree x (List.mem_cons_of_mem _ hx))

theorem PrevChain.head_cons {prev : Cell → Option Cell} {start q : Cell} {l : List Cell}
    (h : PrevChain prev start q l) : ∃ t, l = q :: t := by
  cases h with
  | base => exact ⟨[], rfl⟩
  | step hne hp hch => exact ⟨_, rfl⟩

theorem walkPrev_of_chain (prev : Cell → Option Cell) (start : Cell) {p : Cell}
    {l : List Cell} (h : PrevChain prev start p l) :
    ∀ (acc : List Cell) (fuel : ℕ), l.length ≤ fuel →
      walkPrev prev start fuel p acc = some (l.reverse ++ acc) := by
  induction h with
  | base =>
    intro acc fuel hf
    cases fuel with
    | zero => simp at hf
    | succ f =>
      rw [walkPrev_succ, if_pos rfl]
      simp
  | step hne hp _ ih =>
    intro acc fuel hf
    cases fuel with
    | zero => simp at hf
    | succ f =>
      rw [walkPrev_succ, if_neg hne, hp]
      dsimp only
      rw [ih (_ :: acc) f (by simpa using hf)]
      simp

/-! ## Lemmas about `relaxDir` and `relaxAll` -/

/-- The three outcomes of one relaxation: a guard failed (out of bounds,
visited, or impassable), the tentative distance was not improved, or the
full update fired. -/
theorem relaxDir_cases (g : CostGrid) (c : ℕ) (p : Cell) (st : DState) (d : Cell) :
    ((¬ inB g (p.1 + d.1, p.2 + d.2) ∨ (p.1 + d.1, p.2 + d.2) ∉ st.unvisited ∨
        g.cost (p.1 + d.1, p.2 + d.2) = ⊤) ∧ relaxDir g c p st d = st) ∨
    (¬ ((c + (g.cost (p.1 + d.1, p.2 + d.2)).untop' 0 : ℕ) : Cost)
        < st.dist (p.1 + d.1, p.2 + d.2) ∧ relaxDir g c p st d = st) ∨
    (inB g (p.1 + d.1, p.2 + d.2) ∧ (p.1 + d.1, p.2 + d.2) ∈ st.unvisited ∧
     g.cost (p.1 + d.1, p.2 + d.2) ≠ ⊤ ∧
     ((c + (g.cost (p.1 + d.1, p.2 + d.2)).untop' 0 : ℕ) : Cost)
        < st.dist (p.1 + d.1, p.2 + d.2) ∧
     relaxDir g c p st d =
       { st with
         dist := fun q => if q = (p.1 + d.1, p.2 + d.2)
           then ((c + (g.cost (p.1 + d.1, p.2 + d.2)).untop' 0 : ℕ) : Cost) else st.dist q
         prev := fun q => if q = (p.1 + d.1, p.2 + d.2) then some p else st.prev q
         heap := st.heap ++ [((c + (g.cost (p.1 + d.1, p.2 + d.2)).untop' 0 : ℕ),
           (p.1 + d.1, p.2 + d.2))] }) := by
  unfold relaxDir
  by_cases h1 : ¬ inB g (p.1 + d.1, p.2 + d.2)
  · exact Or.inl ⟨Or.inl h1, if_pos h1⟩
  · rw [if_neg h1]
    by_cases h2 : (p.1 + d.1, p.2 + d.2) ∉ st.unvisited ∨ g.cost (p.1 + d.1, p.2 + d.2) = ⊤
    · refine Or.inl ⟨?_, if_pos h2⟩
      rcases h2 with h | h
      · exact Or.inr (Or.inl h)
      · exact Or.inr (Or.inr h)
    · rw [if_neg h2]
      push_neg at h1
      push_neg at h2
      by_cases h3 : ((c + (g.cost (p.1 + d.1, p.2 + d.2)).untop' 0 : ℕ) : Cost)
          < st.dist (p.1 + d.1, p.2 + d.2)
      · exact Or.inr (Or.inr ⟨h1, h2.1, h2.2, h3, if_pos h3⟩)
      · exact Or.inr (Or.inl ⟨h3, if_neg h3⟩)

theorem relaxDir_unvisited (g : CostGrid) (c : ℕ) (p : Cell) (st : DState) (d : Cell) :
    (relaxDir g c p st d).unvisited = st.unvisited := by
  rcases relaxDir_cases g c p st d with ⟨_, he⟩ | ⟨_, he⟩ | ⟨_, _, _, _, he⟩ <;> rw [he]

theorem relaxDir_dist_fin (g : CostGrid) (c : ℕ) (p : Cell) (st : DState) (d : Cell)
    (q : Cell) (h : st.dist q ≠ ⊤) : (relaxDir g c p st d).dist q ≠ ⊤ := by
  rcases relaxDir_cases g c p st d with ⟨_, he⟩ | ⟨_, he⟩ | ⟨_, _, _, _, he⟩ <;> rw [he]
  · exact h
  · exact h
  · dsimp only
    by_cases hq : q = (p.1 + d.1, p.2 + d.2)
    · rw [if_pos hq]
      exact WithTop.coe_ne_top
    · rw [if_neg hq]
      exact h

theorem relaxDir_ensures (g : CostGrid) (c : ℕ) (p : Cell) (st : DState) (d : Cell)
    (hin : inB g (p.1 + d.1, p.2 + d.2)) (hcost : g.cost (p.1 + d.1, p.2 + d.2) ≠ ⊤)
    (hmem : (p.1 + d.1, p.2 + d.2) ∈ st.unvisited ∨ st.dist (p.1 + d.1, p.2 + d.2) ≠ ⊤) :
    (relaxDir g c p st d).dist (p.1 + d.1, p.2 + d.2) ≠ ⊤ := by
  rcases relaxDir_cases g c p st d with ⟨hg, he⟩ | ⟨hnlt, he⟩ | ⟨_, _, _, _, he⟩
  · rw [he]
    rcases hg with h | h | h
    · exact absurd hin h
    · rcases hmem with hm | hf
      · exact absurd hm h
      · exact hf
    · exact absurd h hcost
  · rw [he]
    intro htop
    rw [htop] at hnlt
    exact hnlt (WithTop.coe_lt_top _)
  · rw [he]
    dsimp only
    rw [if_pos rfl]
    exact WithTop.coe_ne_top

theorem relaxDir_preinv (g : CostGrid) (start : Cell) (c : ℕ) (p : Cell) (st : DState)
    (d : Cell) (hd : d ∈ dirs) (h : PreInv g start p st) :
    PreInv g start p (relaxDir g c p st d) := by
  have hreach_p : Reaches g start p := h.sound p h.p_inB h.p_fin
  rcases relaxDir_cases g c p st d with ⟨_, he⟩ | ⟨_, he⟩ | ⟨hin, hunv, hcost, hlt, he⟩
  · rw [he]; exact h
  · rw [he]; exact h
  · refine ⟨?_, ?_, ?_, ?_, ?_, ?_, ?_, ?_, ?_, ?_, ?_⟩
    · rw [he]; exact h.nodup
    · rw [he]; exact h.sub
    · exact relaxDir_dist_fin g c p st d start h.dist_start
    · intro e he2
      rw [he] at he2
      dsimp only at he2
      rcases List.mem_append.mp he2 with hold | hnew
      · exact relaxDir_dist_fin g c p st d e.2 (h.heap_fin e hold)
      · rw [List.mem_singleton] at hnew
        subst hnew
        rw [he]
        dsimp only
        rw [if_pos rfl]
        exact WithTop.coe_ne_top
    · intro q hq hfin hunv2
      rw [he] at hunv2 hfin
      dsimp only at hunv2 hfin
      by_cases hqn : q = (p.1 + d.1, p.2 + d.2)
      · subst hqn
        refine ⟨((c + (g.cost (p.1 + d.1, p.2 + d.2)).untop' 0 : ℕ),
          (p.1 + d.1, p.2 + d.2)), ?_, rfl⟩
        rw [he]
        dsimp only
        exact List.mem_append.mpr (Or.inr (List.mem_singleton.mpr rfl))
      · rw [if_neg hqn] at hfin
        obtain ⟨e, hemem, he2⟩ := h.frontier q hq hfin hunv2
        refine ⟨e, ?_, he2⟩
        rw [he]
        dsimp only
        exact List.mem_append.mpr (Or.inl hemem)
    · intro u hu hvis hne
      have hvis0 : Visited st u := by
        unfold Visited at hvis ⊢
        rw [he] at hvis
        exact hvis
      obtain ⟨h1, h2⟩ := h.closed_ne u hu hvis0 hne
      refine ⟨relaxDir_dist_fin g c p st d u h1, ?_⟩
      intro d2 hd2 hin2 hcost2
      exact relaxDir_dist_fin g c p st d _ (h2 d2 hd2 hin2 hcost2)
    · intro q hq hfin
      rw [he] at hfin
      dsimp only at hfin
      by_cases hqn : q = (p.1 + d.1, p.2 + d.2)
      · subst hqn
        exact hreach_p.tail ⟨⟨d, hd, rfl⟩, hin, hcost⟩
      · rw [if_neg hqn] at hfin
        exact h.sound q hq hfin
    · intro q hq hfin
      rw [he] at hfin ⊢
      dsimp only at hfin ⊢
      by_cases hqn : q = (p.1 + d.1, p.2 + d.2)
      · by_cases hqs : q = start
        · refine ⟨[q], ?_, List.nodup_singleton _, ?_, ?_⟩
          · rw [hqs]
            exact .base
          · intro x hx
            rw [List.mem_singleton] at hx
            subst hx
            exact hq
          · intro x hx
            simp at hx
        · obtain ⟨tp, hchain, hnd, hinb, htail⟩ := h.chains p h.p_inB h.p_fin
          obtain ⟨tp2, rfl⟩ := hchain.head_cons
          have hallvis : ∀ x ∈ p :: tp2, Visited st x := by
            intro x hx
            rcases List.mem_cons.mp hx with rfl | hx2
            · exact h.p_vis
            · exact htail x hx2
          have hqnot : q ∉ p :: tp2 := by
            intro hqmem
            apply hallvis q hqmem
            rw [hqn]
            exact hunv
          refine ⟨q :: p :: tp2, ?_, ?_, ?_, ?_⟩
          · refine PrevChain.step (q := p) hqs ?_ ?_
            · show (if q = (p.1 + d.1, p.2 + d.2) then some p else st.prev q) = some p
              rw [if_pos hqn]
            · refine hchain.transfer ?_
              intro x hx
              show (if x = (p.1 + d.1, p.2 + d.2) then some p else st.prev x) = st.prev x
              rw [if_neg ?_]
              intro hxeq
              apply hallvis x hx
              rw [hxeq]
              exact hunv
          · exact List.nodup_cons.mpr ⟨hqnot, hnd⟩
          · intro x hx
            rcases List.mem_cons.mp hx with rfl | hx2
            · exact hq
            · exact hinb x hx2
          · intro x hx
            exact hallvis x hx
      · rw [if_neg hqn] at hfin
        obtain ⟨l, hchain, hnd, hinb, htail⟩ := h.chains q hq hfin
        obtain ⟨t, rfl⟩ := hchain.head_cons
        refine ⟨q :: t, hchain.transfer ?_, hnd, hinb, ?_⟩
        · intro x hx
          show (if x = (p.1 + d.1, p.2 + d.2) then some p else st.prev x) = st.prev x
          rw [if_neg ?_]
          intro hxeq
          rcases List.mem_cons.mp hx with h1 | h2
          · exact hqn (h1 ▸ hxeq)
          · apply htail x h2
            rw [hxeq]
            exact hunv
        · intro x hx
          exact htail x hx
    · exact relaxDir_dist_fin g c p st d p h.p_fin
    · unfold Visited
      rw [he]
      exact h.p_vis
    · exact h.p_inB

theorem neighbor_ne (p : Cell) (d : Cell) (hd : d ∈ dirs) :
    (p.1 + d.1, p.2 + d.2) ≠ p := by
  intro he
  rw [Prod.ext_iff] at he
  obtain ⟨h1, h2⟩ := he
  simp only [dirs, List.mem_cons, List.not_mem_nil, or_false] at hd
  rcases hd with rfl | rfl | rfl | rfl <;> simp at h1 h2

theorem relaxAll_eq (g : CostGrid) (c : ℕ) (p : Cell) (st : DState) :
    relaxAll g c p st
      = relaxDir g c p (relaxDir g c p (relaxDir g c p (relaxDir g c p st (-1, 0)) (1, 0))
          (0, -1)) (0, 1) := rfl

theorem disj_step (g : CostGrid) (c : ℕ) (p : Cell) (st : DState) (d2 : Cell) (n : Cell)
    (hb : n ∈ st.unvisited ∨ st.dist n ≠ ⊤) :
    n ∈ (relaxDir g c p st d2).unvisited ∨ (relaxDir g c p st d2).dist n ≠ ⊤ := by
  rcases hb with hm | hf
  · left
    rw [relaxDir_unvisited]
    exact hm
  · right
    exact relaxDir_dist_fin _ _ _ _ _ _ hf

/-- Erasing the popped cell from the pool and dropping its heap entry
preserves everything, with the `closed` obligation suspended for the newly
visited cell (its neighbours are relaxed next). -/
theorem preinv_st1 (g : CostGrid) (start : Cell) (st : DState) (c : ℕ) (p : Cell)
    (rest : List (ℕ × Cell)) (hinv : SearchInv g start st)
    (hpop : popMin st.heap = some ((c, p), rest)) (hp : p ∈ st.unvisited) :
    PreInv g start p { st with unvisited := st.unvisited.erase p, heap := rest } := by
  have hpinB : inB g p := hinv.sub p hp
  have hpfin : st.dist p ≠ ⊤ := hinv.heap_fin (c, p) (popMin_mem _ _ _ hpop)
  refine ⟨?_, ?_, ?_, ?_, ?_, ?_, ?_, ?_, ?_, ?_, ?_⟩
  · exact hinv.nodup.erase p
  · intro q hq
    exact hinv.sub q (List.mem_of_mem_erase hq)
  · exact hinv.dist_start
  · intro e hemem
    exact hinv.heap_fin e (popMin_rest_subset _ _ _ hpop e hemem)
  · intro q hq hfin hunv
    have hq2 := (hinv.nodup.mem_erase_iff).mp hunv
    obtain ⟨e, hemem, he2⟩ := hinv.frontier q hq hfin hq2.2
    refine ⟨e, popMin_mem_rest_of_ne _ _ _ hpop e hemem ?_, he2⟩
    intro heq
    apply hq2.1
    rw [← he2, heq]
  · intro u hu hvis hne
    have hvis0 : Visited st u := by
      unfold Visited at hvis ⊢
      intro hmem
      exact hvis ((hinv.nodup.mem_erase_iff).mpr ⟨hne, hmem⟩)
    exact hinv.closed u hu hvis0
  · exact hinv.sound
  · intro q hq hfin
    obtain ⟨l, hchain, hnd, hinb, htail⟩ := hinv.chains q hq hfin
    refine ⟨l, hchain, hnd, hinb, ?_⟩
    intro x hx
    unfold Visited
    intro hmem
    exact (htail x hx) (List.mem_of_mem_erase hmem)
  · exact hpfin
  · unfold Visited
    intro hmem
    exact ((hinv.nodup.mem_erase_iff).mp hmem).1 rfl
  · exact hpinB

/-- The full visit step (pop, mark visited, relax all four directions)
preserves the search invariant. -/
theorem visit_step (g : CostGrid) (start : Cell) (st : DState) (c : ℕ) (p : Cell)
    (rest : List (ℕ × Cell)) (hinv : SearchInv g start st)
    (hpop : popMin st.heap = some ((c, p), rest)) (hp : p ∈ st.unvisited) :
    SearchInv g start
      (relaxAll g c p { st with unvisited := st.unvisited.erase p, heap := rest }) := by
  have hpre1 := preinv_st1 g start st c p rest hinv hpop hp
  have hpre : PreInv g start p
      (relaxAll g c p { st with unvisited := st.unvisited.erase p, heap := rest }) := by
    rw [relaxAll_eq]
    exact relaxDir_preinv _ _ _ _ _ _ (by simp [dirs])
      (relaxDir_preinv _ _ _ _ _ _ (by simp [dirs])
        (relaxDir_preinv _ _ _ _ _ _ (by simp [dirs])
          (relaxDir_preinv _ _ _ _ _ _ (by simp [dirs]) hpre1)))
  have hbase : ∀ d ∈ dirs, inB g (p.1 + d.1, p.2 + d.2) →
      g.cost (p.1 + d.1, p.2 + d.2) ≠ ⊤ →
      ((p.1 + d.1, p.2 + d.2)
          ∈ ({ st with unvisited := st.unvisited.erase p, heap := rest } : DState).unvisited ∨
        ({ st with unvisited := st.unvisited.erase p, heap := rest } : DState).dist
          (p.1 + d.1, p.2 + d.2) ≠ ⊤) := by
    intro d hd hin hcost
    by_cases hm : (p.1 + d.1, p.2 + d.2) ∈ st.unvisited
    · left
      exact (hinv.nodup.mem_erase_iff).mpr ⟨neighbor_ne p d hd, hm⟩
    · right
      exact (hinv.closed _ hin hm).1
  refine ⟨hpre.nodup, hpre.sub, hpre.dist_start, hpre.heap_fin, hpre.frontier, ?_,
    hpre.sound, hpre.chains⟩
  intro u hu hvis
  by_cases hup : u = p
  · subst hup
    refine ⟨hpre.p_fin, ?_⟩
    intro d hd hin hcost
    have hb := hbase d hd hin hcost
    rw [relaxAll_eq]
    simp only [dirs, List.mem_cons, List.not_mem_nil, or_false] at hd
    rcases hd with rfl | rfl | rfl | rfl
    · exact relaxDir_dist_fin _ _ _ _ _ _ (relaxDir_dist_fin _ _ _ _ _ _
        (relaxDir_dist_fin _ _ _ _ _ _ (relaxDir_ensures _ _ _ _ _ hin hcost hb)))
    · exact relaxDir_dist_fin _ _ _ _ _ _ (relaxDir_dist_fin _ _ _ _ _ _
        (relaxDir_ensures _ _ _ _ _ hin hcost (disj_step _ _ _ _ _ _ hb)))
    · exact relaxDir_dist_fin _ _ _ _ _ _
        (relaxDir_ensures _ _ _ _ _ hin hcost
          (disj_step _ _ _ _ _ _ (disj_step _ _ _ _ _ _ hb)))
    · exact relaxDir_ensures _ _ _ _ _ hin hcost
        (disj_step _ _ _ _ _ _ (disj_step _ _ _ _ _ _ (disj_step _ _ _ _ _ _ hb)))
  · exact hpre.closed_ne u hu hvis hup

/-- The skip step (pop an entry whose cell is already visited) preserves
the search invariant. -/
theorem skip_step (g : CostGrid) (start : Cell) (st : DState) (c : ℕ) (p : Cell)
    (rest : List (ℕ × Cell)) (hinv : SearchInv g start st)
    (hpop : popMin st.heap = some ((c, p), rest)) (hp : p ∉ st.unvisited) :
    SearchInv g start { st with heap := rest } := by
  refine ⟨hinv.nodup, hinv.sub, hinv.dist_start, ?_, ?_, hinv.closed, hinv.sound, ?_⟩
  · intro e hemem
    exact hinv.heap_fin e (popMin_rest_subset _ _ _ hpop e hemem)
  · intro q hq hfin hunv
    obtain ⟨e, hemem, he2⟩ := hinv.frontier q hq hfin hunv
    refine ⟨e, popMin_mem_rest_of_ne _ _ _ hpop e hemem ?_, he2⟩
    intro heq
    apply hp
    rw [← he2, heq] at hunv
    exact hunv
  · intro q hq hfin
    obtain ⟨l, hchain, hnd, hinb, htail⟩ := hinv.chains q hq hfin
    exact ⟨l, hchain, hnd, hinb, htail⟩

theorem relaxAll_unvisited (g : CostGrid) (c : ℕ) (p : Cell) (st : DState) :
    (relaxAll g c p st).unvisited = st.unvisited := by
  rw [relaxAll_eq, relaxDir_unvisited, relaxDir_unvisited, relaxDir_unvisited,
    relaxDir_unvisited]

theorem relaxDir_heap_le (g : CostGrid) (c : ℕ) (p : Cell) (st : DState) (d : Cell) :
    (relaxDir g c p st d).heap.length ≤ st.heap.length + 1 := by
  rcases relaxDir_cases g c p st d with ⟨_, he⟩ | ⟨_, he⟩ | ⟨_, _, _, _, he⟩ <;>
    rw [he] <;> simp

theorem relaxAll_heap_le (g : CostGrid) (c : ℕ) (p : Cell) (st : DState) :
    (relaxAll g c p st).heap.length ≤ st.heap.length + 4 := by
  rw [relaxAll_eq]
  have h1 := relaxDir_heap_le g c p st (-1, 0)
  have h2 := relaxDir_heap_le g c p (relaxDir g c p st (-1, 0)) (1, 0)
  have h3 := relaxDir_heap_le g c p
    (relaxDir g c p (relaxDir g c p st (-1, 0)) (1, 0)) (0, -1)
  have h4 := relaxDir_heap_le g c p
    (relaxDir g c p (relaxDir g c p (relaxDir g c p st (-1, 0)) (1, 0)) (0, -1)) (0, 1)
  omega

/-- The invariant holds before the first loop iteration. -/
theorem searchInv_init (g : CostGrid) (start : Cell) (hs : inB g start) :
    SearchInv g start (initState g start) := by
  refine ⟨allCells_nodup g, ?_, ?_, ?_, ?_, ?_, ?_, ?_⟩
  · intro q hq
    exact (mem_allCells g q).mp hq
  · dsimp [initState]
    rw [if_pos rfl]
    exact WithTop.coe_ne_top
  · intro e hemem
    dsimp [initState] at hemem ⊢
    rw [List.mem_singleton] at hemem
    subst hemem
    rw [if_pos rfl]
    exact WithTop.coe_ne_top
  · intro q hq hfin hunv
    dsimp [initState] at hfin
    by_cases hqs : q = start
    · subst hqs
      exact ⟨((0 : ℕ), q), List.mem_singleton.mpr rfl, rfl⟩
    · rw [if_neg hqs] at hfin
      exact absurd rfl hfin
  · intro u hu hvis
    exact absurd ((mem_allCells g u).mpr hu) hvis
  · intro q hq hfin
    dsimp [initState] at hfin
    by_cases hqs : q = start
    · subst hqs
      exact Relation.ReflTransGen.refl
    · rw [if_neg hqs] at hfin
      exact absurd rfl hfin
  · intro q hq hfin
    dsimp [initState] at hfin
    by_cases hqs : q = start
    · subst hqs
      refine ⟨[q], .base, List.nodup_singleton _, ?_, ?_⟩
      · intro x hx
        rw [List.mem_singleton] at hx
        subst hx
        exact hq
      · intro x hx
        simp at hx
    · rw [if_neg hqs] at hfin
      exact absurd rfl hfin

/-- Running the loop from an invariant state with enough fuel: every
discovered cell is reachable and has a duplicate-free in-bounds `prev`
chain, and either the destination was discovered or the loop drained the
heap with the invariant intact.  The fuel hypothesis
`|heap| + 4·|unvisited| ≤ fuel` is the termination measure of the source's
`while` loop: each iteration pops one entry and only a visit step (at most
`|unvisited|` of them) pushes, at most 4 entries. -/
theorem dloop_post (g : CostGrid) (start endp : Cell) :
    ∀ (fuel : ℕ) (st : DState), SearchInv g start st →
      st.heap.length + 4 * st.unvisited.length ≤ fuel →
      (∀ q, inB g q → (dloop g endp fuel st).dist q ≠ ⊤ → Reaches g start q) ∧
      (∀ q, inB g q → (dloop g endp fuel st).dist q ≠ ⊤ →
        ∃ l, PrevChain (dloop g endp fuel st).prev start q l ∧ l.Nodup ∧
          ∀ x ∈ l, inB g x) ∧
      ((dloop g endp fuel st).dist endp ≠ ⊤ ∨
        ((dloop g endp fuel st).heap = [] ∧ SearchInv g start (dloop g endp fuel st))) := by
  intro fuel
  induction fuel with
  | zero =>
    intro st hinv hfuel
    have hheap : st.heap = [] := List.length_eq_zero.mp (by omega)
    refine ⟨fun q hq => hinv.sound q hq, ?_, Or.inr ⟨hheap, hinv⟩⟩
    intro q hq hfin
    obtain ⟨l, hch, hnd, hinb, _⟩ := hinv.chains q hq hfin
    exact ⟨l, hch, hnd, hinb⟩
  | succ fuel ih =>
    intro st hinv hfuel
    rw [dloop_succ]
    cases hpop : popMin st.heap with
    | none =>
      have hheap : st.heap = [] := (popMin_eq_none_iff _).mp hpop
      dsimp only
      refine ⟨fun q hq => hinv.sound q hq, ?_, Or.inr ⟨hheap, hinv⟩⟩
      intro q hq hfin
      obtain ⟨l, hch, hnd, hinb, _⟩ := hinv.chains q hq hfin
      exact ⟨l, hch, hnd, hinb⟩
    | some pr =>
      obtain ⟨⟨c, p⟩, rest⟩ := pr
      dsimp only
      have hlen : st.heap.length = rest.length + 1 := popMin_length _ _ _ hpop
      by_cases hp : p ∈ st.unvisited
      · rw [if_pos hp]
        by_cases hend : p = endp
        · rw [if_pos hend]
          refine ⟨fun q hq => hinv.sound q hq, ?_, Or.inl ?_⟩
          · intro q hq hfin
            obtain ⟨l, hch, hnd, hinb, _⟩ := hinv.chains q hq hfin
            exact ⟨l, hch, hnd, hinb⟩
          · subst hend
            exact hinv.heap_fin (c, p) (popMin_mem _ _ _ hpop)
        · rw [if_neg hend]
          have hinv2 := visit_step g start st c p rest hinv hpop hp
          have hμ2 : (relaxAll g c p
                { st with unvisited := st.unvisited.erase p, heap := rest }).heap.length
              + 4 * (relaxAll g c p
                { st with unvisited := st.unvisited.erase p, heap := rest }).unvisited.length
              ≤ fuel := by
            rw [relaxAll_unvisited]
            have h1 := relaxAll_heap_le g c p
              { st with unvisited := st.unvisited.erase p, heap := rest }
            have h2 : (st.unvisited.erase p).length = st.unvisited.length - 1 :=
              List.length_erase_of_mem hp
            have h3 : 0 < st.unvisited.length := List.length_pos_of_mem hp
            dsimp only at h1 h2 ⊢
            omega
          exact ih _ hinv2 hμ2
      · rw [if_neg hp]
        have hinv2 := skip_step g start st c p rest hinv hpop hp
        exact ih _ hinv2 (by dsimp only; omega)

/-! ## Helper lemmas about spawning -/

theorem manhattan_nonneg (x y dx dy : ℤ) : 0 ≤ manhattan x y dx dy :=
  add_nonneg (abs_nonneg _) (abs_nonneg _)

theorem manhattan_eq_zero_iff (x y dx dy : ℤ) :
    manhattan x y dx dy = 0 ↔ dx = x ∧ dy = y := by
  unfold manhattan
  rw [add_eq_zero_iff_of_nonneg (abs_nonneg _) (abs_nonneg _), abs_eq_zero, abs_eq_zero,
    sub_eq_zero, sub_eq_zero]

theorem manhattan_pos_iff (s d : Cell) : 0 < manhattan s.2 s.1 d.2 d.1 ↔ s ≠ d := by
  constructor
  · intro h heq
    subst heq
    simp [manhattan] at h
  · intro hne
    rcases (manhattan_nonneg s.2 s.1 d.2 d.1).lt_or_eq with h | h
    · exact h
    · exact absurd
        (Prod.ext ((manhattan_eq_zero_iff s.2 s.1 d.2 d.1).mp h.symm).2.symm
          ((manhattan_eq_zero_iff s.2 s.1 d.2 d.1).mp h.symm).1.symm) hne

theorem snd_mem_of_mem_enumFrom {α : Type} (l : List α) (n : ℕ) (p : ℕ × α)
    (h : p ∈ l.enumFrom n) : p.2 ∈ l := by
  induction l generalizing n with
  | nil => simp [List.enumFrom] at h
  | cons a tl ih =>
    rw [List.enumFrom] at h
    rcases List.mem_cons.mp h with h1 | h2
    · subst h1
      exact List.mem_cons_self _ _
    · exact List.mem_cons_of_mem _ (ih (n + 1) h2)

/-- Every car produced by `create_cars` is moving, has a zero tick counter,
satisfies the Manhattan-distance invariant, and has positive distance (the
degenerate spawns were dropped). -/
theorem create_cars_fields (grid : CityGrid) (ss ds : List Cell) :
    ∀ c ∈ create_cars grid ss ds,
      c.status = .moving ∧ c.ticks_traveled = 0 ∧
      c.distance_to_dest = manhattan c.x c.y c.dest_x c.dest_y ∧
      0 < c.distance_to_dest := by
  intro c hc
  unfold create_cars at hc
  simp only [List.mem_map] at hc
  obtain ⟨ic, hic, rfl⟩ := hc
  have h2 : ic.2 ∈ (((ss.zip ds).enum.map (spawn_row grid)).filter
      fun c => 0 < c.distance_to_dest) :=
    snd_mem_of_mem_enumFrom _ 0 ic hic
  rw [List.mem_filter] at h2
  obtain ⟨hmem, hpos⟩ := h2
  simp only [List.mem_map] at hmem
  obtain ⟨isd, hisd, hrow⟩ := hmem
  rw [← hrow] at hpos ⊢
  refine ⟨rfl, rfl, rfl, by simpa using hpos⟩

theorem filter_spawn_length (grid : CityGrid) (l : List (Cell × Cell)) :
    ∀ n : ℕ,
      (((l.enumFrom n).map (spawn_row grid)).filter fun c => 0 < c.distance_to_dest).length
        = (l.filter fun sd => decide (sd.1 ≠ sd.2)).length := by
  induction l with
  | nil => intro n; rfl
  | cons sd tl ih =>
    intro n
    rw [List.enumFrom]
    simp only [List.map_cons]
    have key : (0 < (spawn_row grid (n, sd)).distance_to_dest) ↔ sd.1 ≠ sd.2 :=
      manhattan_pos_iff sd.1 sd.2
    by_cases h : sd.1 = sd.2
    · rw [List.filter_cons_of_neg (by simp [key, h]),
        List.filter_cons_of_neg (by simp [h])]
      exact ih (n + 1)
    · rw [List.filter_cons_of_pos (by simp [key, h]),
        List.filter_cons_of_pos (by simp [h])]
      simp only [List.length_cons]
      rw [ih (n + 1)]

theorem create_cars_length (grid : CityGrid) (ss ds : List Cell) :
    (create_cars grid ss ds).length
      = ((ss.zip ds).filter fun sd => decide (sd.1 ≠ sd.2)).length := by
  unfold create_cars
  simp only [List.length_map, List.enum_length]
  exact filter_spawn_length grid (ss.zip ds) 0

theorem le_foldr_max (l : List ℕ) (b : ℕ) : ∀ a ∈ l, a ≤ l.foldr max b := by
  induction l with
  | nil => intro a ha; simp at ha
  | cons x tl ih =>
    intro a ha
    rcases List.mem_cons.mp ha with rfl | h
    · exact le_max_left _ _
    · exact le_trans (ih a h) (le_max_right _ _)

/-! ## Helper lemmas for the distance invariant -/

theorem move_one_dist_inv (pm : PathMap) (c : Car)
    (h : c.distance_to_dest = manhattan c.x c.y c.dest_x c.dest_y) :
    (move_one pm c).distance_to_dest
      = manhattan (move_one pm c).x (move_one pm c).y
          (move_one pm c).dest_x (move_one pm c).dest_y := by
  unfold move_one
  cases hs : c.status with
  | moving => simp
  | arrived => simpa using h

theorem spawn_dist_inv (cars : List Car) (grid : CityGrid) (ss ds : List Cell)
    (h : ∀ c ∈ cars, c.distance_to_dest = manhattan c.x c.y c.dest_x c.dest_y) :
    ∀ c ∈ spawn_rush_hour_cars cars grid ss ds,
      c.distance_to_dest = manhattan c.x c.y c.dest_x c.dest_y := by
  intro c hc
  unfold spawn_rush_hour_cars at hc
  rcases List.mem_append.mp hc with h1 | h2
  · exact h c h1
  · simp only [List.mem_map] at h2
    obtain ⟨c0, hc0, rfl⟩ := h2
    simpa using (create_cars_fields grid ss ds c0 hc0).2.2.1

theorem sim_tick_dist_inv (grid : CityGrid) (rs rd : List Cell) (t : ℕ) (s : SimState)
    (h : ∀ c ∈ s.cars, c.distance_to_dest = manhattan c.x c.y c.dest_x c.dest_y) :
    ∀ c ∈ (sim_tick grid rs rd t s).cars,
      c.distance_to_dest = manhattan c.x c.y c.dest_x c.dest_y := by
  intro c hc
  unfold sim_tick move_cars_with_paths at hc
  simp only [List.mem_map] at hc
  obtain ⟨c0, hc0, rfl⟩ := hc
  apply move_one_dist_inv
  by_cases ht : t = RUSH_HOUR_TICK
  · rw [if_pos ht] at hc0
    exact spawn_dist_inv s.cars grid rs rd h c0 hc0
  · rw [if_neg ht] at hc0
    exact h c0 hc0

/-! ## Claims -/

/-- C5: for every grid and congestion map, `build_cost_grid` pins every
Building cell to the impassable sentinel regardless of its congestion
count, and gives every non-Building cell exactly
`base_cost(kind) + 0.5 × congestion` — in the half-unit encoding the
penalty is one unit per car, and the base costs Road = 1.0, Highway = 0.5,
TrafficLight = 1.5 are the units 2, 1, 3. -/
theorem build_cost_grid_spec (grid : CityGrid) (congestion_map : Cell → ℕ) (p : Cell) :
    (grid.cell p = .building → (build_cost_grid grid congestion_map).cost p = ⊤) ∧
    (grid.cell p ≠ .building →
      (build_cost_grid grid congestion_map).cost p
        = base_cost (grid.cell p) + (congestion_map p : ℕ)) ∧
    base_cost .road = ((2 : ℕ) : Cost) ∧
    base_cost .highway = ((1 : ℕ) : Cost) ∧
    base_cost .traffic_light = ((3 : ℕ) : Cost) := by
  refine ⟨fun h => ?_, fun h => ?_, rfl, rfl, rfl⟩
  · simp [build_cost_grid, h]
  · simp [build_cost_grid, h]

/-- Witness for C5 at a concrete grid: the congested building cell is still
`⊤`, and the road cell with 3 cars costs `1.0 + 3 × 0.5 = 2.5`, i.e. 5 half
units. -/
theorem build_cost_grid_spec_witness :
    (build_cost_grid gridC5 congC5).cost (0, 0) = ⊤ ∧
    (build_cost_grid gridC5 congC5).cost (0, 1) = ((5 : ℕ) : Cost) :=
  ⟨(build_cost_grid_spec gridC5 congC5 (0, 0)).1 (by decide),
   ((build_cost_grid_spec gridC5 congC5 (0, 1)).2.1 (by decide)).trans (by decide)⟩

/-- C6: vehicle status is monotonic across a simulation tick — an `arrived`
car is left entirely unchanged — and the post-tick status is `arrived`
exactly when the car either already was, or its freshly recomputed
`distance_to_dest` has reached 0 (the transition happens at that tick and
only then). -/
theorem status_monotonic_tick (grid : CityGrid) (rs rd : List Cell) (t : ℕ) (s : SimState)
    (i : ℕ) (c : Car) (hc : s.cars[i]? = some c) :
    ∃ d : Car, (sim_tick grid rs rd t s).cars[i]? = some d ∧
      (c.status = .arrived → d = c) ∧
      (d.status = .arrived ↔ c.status = .arrived ∨ d.distance_to_dest = 0) := by
  refine ⟨move_one (sim_tick grid rs rd t s).paths c,
    sim_tick_cars_getElem grid rs rd t s i c hc, ?_, ?_⟩
  · exact move_one_of_arrived _ c
  · exact move_one_status_iff _ c

/-- Witness for C6 on a concrete one-car state. -/
theorem status_monotonic_tick_witness :
    ∃ d : Car, (sim_tick gridW [] [] 0 stateW).cars[0]? = some d ∧
      (carW.status = .arrived → d = carW) ∧
      (d.status = .arrived ↔ carW.status = .arrived ∨ d.distance_to_dest = 0) :=
  status_monotonic_tick gridW [] [] 0 stateW 0 carW (by decide)

/-- C10: in one application of the motion engine every `moving` car gets
`ticks_traveled` incremented by exactly 1 — including a car with no path
cache entry, which keeps its position — while an `arrived` car keeps its
`ticks_traveled` unchanged. -/
theorem ticks_traveled_increment (cars : List Car) (pm : PathMap) (grid : CityGrid)
    (i : ℕ) (c : Car) (hc : cars[i]? = some c) :
    ∃ d : Car, (move_cars_with_paths cars pm grid)[i]? = some d ∧
      (c.status = .moving → d.ticks_traveled = c.ticks_traveled + 1) ∧
      (c.status = .moving → pm c.car_id = none → d.x = c.x ∧ d.y = c.y) ∧
      (c.status = .arrived → d.ticks_traveled = c.ticks_traveled) := by
  refine ⟨move_one pm c, ?_, move_one_ticks_of_moving pm c,
    move_one_stay_of_no_path pm c, fun h => by rw [move_one_of_arrived pm c h]⟩
  unfold move_cars_with_paths
  rw [List.getElem?_map, hc]
  rfl

/-- Witness for C10 on a concrete one-car list with an empty cache. -/
theorem ticks_traveled_increment_witness :
    ∃ d : Car, (move_cars_with_paths [carW] (fun _ => none) gridW)[0]? = some d ∧
      (carW.status = .moving → d.ticks_traveled = carW.ticks_traveled + 1) ∧
      (carW.status = .moving → (fun _ => none : PathMap) carW.car_id = none →
        d.x = carW.x ∧ d.y = carW.y) ∧
      (carW.status = .arrived → d.ticks_traveled = carW.ticks_traveled) :=
  ticks_traveled_increment [carW] (fun _ => none) gridW 0 carW (by decide)

/-- C8 (amended): `get_next_step` on a path with at least two cells moves to
the waypoint after the *first occurrence of the current position that has a
successor*; when no occurrence has a successor — the position is absent, or
present only as the final entry — it falls back to index 1; on a path
shorter than 2 it returns the current position unchanged.  The motion
engine relocates a moving car with a cache entry to exactly this cell. -/
theorem get_next_step_spec (path : List Cell) (pos : Cell) :
    (path.length < 2 → get_next_step path pos = pos) ∧
    (∀ i : ℕ, ∀ hi : i + 1 < path.length,
        path.get ⟨i, by omega⟩ = pos →
        (∀ j : ℕ, ∀ hj : j < i, path.get ⟨j, by omega⟩ ≠ pos) →
        get_next_step path pos = path.get ⟨i + 1, hi⟩) ∧
    (∀ h2 : 2 ≤ path.length,
        (∀ i : ℕ, ∀ hi : i + 1 < path.length, path.get ⟨i, by omega⟩ ≠ pos) →
        get_next_step path pos = path.get ⟨1, by omega⟩) ∧
    (∀ (pm : PathMap) (car : Car), car.status = .moving → pm car.car_id = some path →
        ((move_one pm car).y, (move_one pm car).x) = get_next_step path (car.y, car.x)) := by
  refine ⟨?_, ?_, ?_, ?_⟩
  · intro h
    unfold get_next_step
    rw [dif_pos h]
  · intro i hi hp hfirst
    unfold get_next_step
    rw [dif_neg (by omega)]
    rw [find_next_eq_some path pos i hi hp hfirst]
  · intro h2 hnone
    unfold get_next_step
    rw [dif_neg (by omega)]
    rw [find_next_eq_none path pos hnone]
  · exact fun pm car h hp => move_one_pos_of_path pm car path h hp

/-- Witness for C8: on the path `[(0,0), (0,1)]` with the car standing on
`(0,0)`, the engine moves to `(0,1)`. -/
theorem get_next_step_spec_witness :
    get_next_step [((0 : ℤ), (0 : ℤ)), (0, 1)] (0, 0) = (0, 1) :=
  (get_next_step_spec [((0 : ℤ), (0 : ℤ)), (0, 1)] (0, 0)).2.1 0 (by decide) (by decide)
    (fun j hj => absurd hj (by omega))

/-- Counterexample for C8 as stated: on the path `[(0,0), (0,1), (0,2)]`
with current position `(0,2)`, the position *does* occur in the path, yet
the engine does not move to "the entry immediately after that occurrence"
(there is none — the occurrence is the final entry); it falls back to index
1, i.e. `(0,1)`, which is not the successor of any occurrence. -/
theorem get_next_step_counterexample :
    (((0 : ℤ), (2 : ℤ)) ∈ [((0 : ℤ), (0 : ℤ)), (0, 1), (0, 2)]) ∧
    get_next_step [((0 : ℤ), (0 : ℤ)), (0, 1), (0, 2)] (0, 2) = (0, 1) ∧
    ¬ ∃ i : Fin 3,
        [((0 : ℤ), (0 : ℤ)), (0, 1), (0, 2)].get i = (0, 2) ∧
        (i : ℕ) + 1 < 3 ∧
        get_next_step [((0 : ℤ), (0 : ℤ)), (0, 1), (0, 2)] (0, 2)
          = [((0 : ℤ), (0 : ℤ)), (0, 1), (0, 2)].getD ((i : ℕ) + 1) (0, 0) := by
  decide

/-- C1: after every tick of the simulation — and already at spawn time —
every vehicle's `distance_to_dest` equals the Manhattan distance between
its position and its destination. -/
theorem distance_invariant_run (grid : CityGrid) (ss ds rs rd : List Cell) (n : ℕ) :
    ∀ c ∈ (run_ticks grid rs rd n
        { cars := create_cars grid ss ds, paths := fun _ => none }).cars,
      c.distance_to_dest = manhattan c.x c.y c.dest_x c.dest_y := by
  induction n with
  | zero => exact fun c hc => (create_cars_fields grid ss ds c hc).2.2.1
  | succ k ih => exact sim_tick_dist_inv grid rs rd k _ ih

/-- Witness for C1: the single car spawned on a concrete 2×2 grid at tick 0. -/
theorem distance_invariant_run_witness :
    carW.distance_to_dest = manhattan carW.x carW.y carW.dest_x carW.dest_y :=
  distance_invariant_run gridW [(0, 0)] [(0, 1)] [] [] 0 carW (by decide)

/-- C2 (code bug): the rush-hour injection is guarded *only* by the tick
equality `tick == RUSH_HOUR_TICKS[0]` (src/simulation.py line 74); the loop
state carries no fired-flag.  Executing the per-tick step twice at the
trigger tick — the re-entrant/resumed scenario of the spec — injects a
second batch: starting from one (arrived) car, the first execution of tick
20 brings the population to 2, and a second execution of the same tick
index brings it to 3. -/
theorem rush_hour_double_injection :
    (sim_tick gridW [(0, 0)] [(0, 1)] RUSH_HOUR_TICK
        { cars := [carArr], paths := fun _ => none }).cars.length = 2 ∧
    (sim_tick gridW [(0, 0)] [(0, 1)] RUSH_HOUR_TICK
      (sim_tick gridW [(0, 0)] [(0, 1)] RUSH_HOUR_TICK
        { cars := [carArr], paths := fun _ => none })).cars.length = 3 := by
  decide

/-- C3 (amended): a rush-hour injection increases the vehicle count by
exactly the number of sampled start/destination pairs that are
non-degenerate (start ≠ destination) — this equals the configured batch
size `B` only when no sampled pair is degenerate, because `create_cars`
drops degenerate spawns — and every injected car's id is strictly greater
than every pre-existing id.  The hypothesis `cars ≠ []` marks the only
state on which the source itself is undefined (`max()` of an empty column
is NaN). -/
theorem spawn_rush_hour_spec (cars : List Car) (grid : CityGrid) (ss ds : List Cell)
    (hne : cars ≠ []) :
    (spawn_rush_hour_cars cars grid ss ds).length
      = cars.length + ((ss.zip ds).filter fun sd => decide (sd.1 ≠ sd.2)).length ∧
    ∀ c2 ∈ (spawn_rush_hour_cars cars grid ss ds).drop cars.length,
      ∀ c ∈ cars, c.car_id < c2.car_id := by
  constructor
  · unfold spawn_rush_hour_cars
    rw [List.length_append, List.length_map, create_cars_length]
  · intro c2 hc2 c hc
    unfold spawn_rush_hour_cars at hc2
    rw [List.drop_left] at hc2
    simp only [List.mem_map] at hc2
    obtain ⟨c0, hc0, rfl⟩ := hc2
    have hle : c.car_id ≤ (cars.map Car.car_id).foldr max 0 :=
      le_foldr_max _ 0 c.car_id (List.mem_map_of_mem Car.car_id hc)
    simp only []
    omega

/-- Witness for C3: one existing car, a batch of two samples of which one is
degenerate — the population grows by exactly one (the non-degenerate
sample), and the new id exceeds the old one. -/
theorem spawn_rush_hour_spec_witness :
    (spawn_rush_hour_cars [carW] gridW [(0, 0), (1, 1)] [(0, 1), (1, 1)]).length
      = [carW].length
        + (([((0 : ℤ), (0 : ℤ)), (1, 1)].zip [((0 : ℤ), (1 : ℤ)), (1, 1)]).filter
            fun sd => decide (sd.1 ≠ sd.2)).length ∧
    ∀ c2 ∈ (spawn_rush_hour_cars [carW] gridW [(0, 0), (1, 1)] [(0, 1), (1, 1)]).drop
        [carW].length,
      ∀ c ∈ [carW], c.car_id < c2.car_id :=
  spawn_rush_hour_spec [carW] gridW [(0, 0), (1, 1)] [(0, 1), (1, 1)] (by decide)

/-- Counterexample for C3 as stated: with batch size `B = 2` but one
degenerate sampled pair, the rush-hour injection grows the population by 1,
not by `B`. -/
theorem spawn_count_counterexample :
    (spawn_rush_hour_cars [carW] gridW [(0, 0), (1, 1)] [(0, 1), (1, 1)]).length = 2 ∧
    ¬ (spawn_rush_hour_cars [carW] gridW [(0, 0), (1, 1)] [(0, 1), (1, 1)]).length
        = [carW].length + 2 := by
  decide

/-- C9: for every cost grid and every in-bounds passable cell `p`, the
planner invoked with `start = end = p` returns the single-element path
`[p]`: the first pop finalizes `p`, the early exit fires at once, and the
reconstruction walk terminates immediately with `dist[end] = 0 ≠ inf`. -/
theorem dijkstra_start_eq_end (g : CostGrid) (p : Cell) (hin : inB g p)
    (hpass : g.cost p ≠ ⊤) :
    dijkstra g p p = [p] := by
  have hstep : dloop g p (4 * (g.rows * g.cols) + 1) (initState g p)
      = { initState g p with unvisited := (allCells g).erase p, heap := [] } := by
    rw [dloop_succ]
    have hpop : popMin (initState g p).heap = some (((0 : ℕ), p), []) := rfl
    rw [hpop]
    have hmem : p ∈ allCells g := (mem_allCells g p).mpr hin
    simp only [initState, hmem, eq_self_iff_true, if_true]
  unfold dijkstra
  rw [hstep]
  dsimp only [initState]
  rw [if_pos rfl]
  rw [if_neg (by exact WithTop.coe_ne_top)]
  rw [walkPrev_succ]
  rw [if_pos rfl]

/-- Witness for C9 on the concrete cost grid of the 2×2 all-road city. -/
theorem dijkstra_start_eq_end_witness :
    dijkstra (build_cost_grid gridW fun _ => 0) (0, 0) (0, 0) = [(0, 0)] :=
  dijkstra_start_eq_end (build_cost_grid gridW fun _ => 0) (0, 0) (by decide) (by decide)

/-! ## Helper lemmas for driving a car along a duplicate-free path -/

theorem move_one_car_keeps_id (pm : PathMap) (c : Car) :
    (move_one pm c).car_id = c.car_id := by
  unfold move_one
  by_cases h : c.status = .moving <;> simp [h]

theorem get_next_step_nodup (path : List Cell) (hnd : path.Nodup) (k : ℕ)
    (hk : k + 1 < path.length) :
    get_next_step path (path.get ⟨k, by omega⟩) = path.get ⟨k + 1, hk⟩ := by
  have hfirst : ∀ j : ℕ, ∀ hj : j < k,
      path.get ⟨j, by omega⟩ ≠ path.get ⟨k, by omega⟩ := by
    intro j hj heq
    have hjk : j = k := by simpa using hnd.get_inj_iff.mp heq
    omega
  unfold get_next_step
  rw [dif_neg (by omega),
    find_next_eq_some path (path.get ⟨k, by omega⟩) k hk rfl hfirst]

theorem move_one_step_on_path (pm : PathMap) (car0 : Car) (path : List Cell) (k : ℕ)
    (hk : k + 1 < path.length) (hnd : path.Nodup)
    (hpm : pm car0.car_id = some path)
    (hst : car0.status = .moving)
    (hx : car0.x = (path.get ⟨k, by omega⟩).2)
    (hy : car0.y = (path.get ⟨k, by omega⟩).1) :
    (move_one pm car0).x = (path.get ⟨k + 1, hk⟩).2 ∧
    (move_one pm car0).y = (path.get ⟨k + 1, hk⟩).1 ∧
    (move_one pm car0).car_id = car0.car_id ∧
    (move_one pm car0).dest_x = car0.dest_x ∧
    (move_one pm car0).dest_y = car0.dest_y ∧
    (move_one pm car0).status
      = if manhattan (path.get ⟨k + 1, hk⟩).2 (path.get ⟨k + 1, hk⟩).1
            car0.dest_x car0.dest_y = 0
        then Status.arrived else Status.moving := by
  have hpos : ((car0.y, car0.x) : Cell) = path.get ⟨k, by omega⟩ := by
    rw [hx, hy]
  have hnext : get_next_step path (car0.y, car0.x) = path.get ⟨k + 1, hk⟩ := by
    rw [hpos]
    exact get_next_step_nodup path hnd k hk
  unfold move_one
  rw [hst]
  simp only [if_pos rfl, hpm, hnext]
  exact ⟨rfl, rfl, rfl, rfl, rfl, rfl⟩

theorem motion_aux (pm : PathMap) (car : Car) (path : List Cell)
    (hpm : pm car.car_id = some path) (hnd : path.Nodup) (hlen : 2 ≤ path.length)
    (hhead : path.get ⟨0, by omega⟩ = (car.y, car.x))
    (hlast : path.get ⟨path.length - 1, by omega⟩ = (car.dest_y, car.dest_x))
    (hmov : car.status = .moving) :
    ∀ k : ℕ, ∀ hk : k < path.length,
      (k < path.length - 1 →
        (((move_one pm)^[k]) car).status = .moving ∧
        (((move_one pm)^[k]) car).x = (path.get ⟨k, hk⟩).2 ∧
        (((move_one pm)^[k]) car).y = (path.get ⟨k, hk⟩).1 ∧
        (((move_one pm)^[k]) car).car_id = car.car_id ∧
        (((move_one pm)^[k]) car).dest_x = car.dest_x ∧
        (((move_one pm)^[k]) car).dest_y = car.dest_y) ∧
      (k = path.length - 1 → (((move_one pm)^[k]) car).status = .arrived) := by
  intro k
  induction k with
  | zero =>
    intro hk
    constructor
    · intro hlt
      refine ⟨hmov, ?_, ?_, rfl, rfl, rfl⟩
      · have hh : path[0] = ((car.y, car.x) : Cell) := hhead
        simp [hh]
      · have hh : path[0] = ((car.y, car.x) : Cell) := hhead
        simp [hh]
    · intro h0
      exact absurd h0 (by omega)
  | succ k ih =>
    intro hk1
    have hk : k < path.length := by omega
    have hklt : k < path.length - 1 := by omega
    obtain ⟨hstm, hxm, hym, hidm, hdxm, hdym⟩ := (ih hk).1 hklt
    obtain ⟨sx, sy, sid, sdx, sdy, sstatus⟩ :=
      move_one_step_on_path pm (((move_one pm)^[k]) car) path k (by omega) hnd
        (by rw [hidm]; exact hpm) hstm hxm hym
    rw [Function.iterate_succ_apply']
    constructor
    · intro hlt1
      have hne : path.get ⟨k + 1, by omega⟩ ≠ path.get ⟨path.length - 1, by omega⟩ := by
        intro heq
        have hval : k + 1 = path.length - 1 := by simpa using hnd.get_inj_iff.mp heq
        omega
      have hman : manhattan (path.get ⟨k + 1, by omega⟩).2 (path.get ⟨k + 1, by omega⟩).1
          (((move_one pm)^[k]) car).dest_x (((move_one pm)^[k]) car).dest_y ≠ 0 := by
        rw [hdxm, hdym]
        intro h0
        obtain ⟨e1, e2⟩ := (manhattan_eq_zero_iff _ _ _ _).mp h0
        apply hne
        have hcell : path.get ⟨k + 1, by omega⟩ = ((car.dest_y, car.dest_x) : Cell) :=
          Prod.ext e2.symm e1.symm
        rw [hcell, ← hlast]
      refine ⟨?_, sx, sy, sid.trans hidm, sdx.trans hdxm, sdy.trans hdym⟩
      rw [sstatus, if_neg hman]
    · intro heqk
      have hfin : (⟨k + 1, by omega⟩ : Fin path.length)
          = ⟨path.length - 1, by omega⟩ := Fin.ext heqk
      have hcell : path.get ⟨k + 1, by omega⟩ = ((car.dest_y, car.dest_x) : Cell) := by
        rw [hfin, hlast]
      rw [sstatus, hdxm, hdym]
      rw [if_pos ((manhattan_eq_zero_iff _ _ _ _).mpr ⟨by rw [hcell], by rw [hcell]⟩)]

/-- C7 (amended): a moving vehicle whose cache entry is a *duplicate-free*
path of length ≥ 2 starting at its position and ending at its destination
reaches `arrived` in exactly `len(path) - 1` applications of the motion
engine — `arrived` at step `len - 1` and still `moving` at every earlier
step.  (Without the `Nodup` hypothesis the claim is false, see the
counterexample; paths produced by `dijkstra` are duplicate-free.) -/
theorem motion_reaches_in_path_length (pm : PathMap) (car : Car) (path : List Cell)
    (hpm : pm car.car_id = some path) (hnd : path.Nodup) (hlen : 2 ≤ path.length)
    (hhead : path.get ⟨0, by omega⟩ = (car.y, car.x))
    (hlast : path.get ⟨path.length - 1, by omega⟩ = (car.dest_y, car.dest_x))
    (hmov : car.status = .moving) :
    (((move_one pm)^[path.length - 1]) car).status = .arrived ∧
    ∀ k : ℕ, k < path.length - 1 → (((move_one pm)^[k]) car).status = .moving := by
  have aux := motion_aux pm car path hpm hnd hlen hhead hlast hmov
  constructor
  · exact (aux (path.length - 1) (by omega)).2 rfl
  · intro k hk
    exact ((aux k (by omega)).1 hk).1

/-- Witness for C7: along the two-cell path the car arrives in exactly one
tick. -/
theorem motion_reaches_in_path_length_witness :
    (((move_one pmC7w)^[([((0 : ℤ), (0 : ℤ)), (0, 1)] : List Cell).length - 1]) carW).status
      = .arrived ∧
    ∀ k : ℕ, k < ([((0 : ℤ), (0 : ℤ)), (0, 1)] : List Cell).length - 1 →
      (((move_one pmC7w)^[k]) carW).status = .moving :=
  motion_reaches_in_path_length pmC7w carW [(0, 0), (0, 1)] (by decide) (by decide)
    (by decide) (by decide) (by decide) (by decide)

/-- Counterexample for C7 as stated: the cached path
`[(0,0), (0,1), (0,2), (0,1)]` has length 4, starts at the car's position
and ends at its destination, yet the vehicle is already `arrived` after 1
tick (the destination appears mid-path), not after `len - 1 = 3` ticks. -/
theorem motion_path_length_counterexample :
    ([((0 : ℤ), (0 : ℤ)), (0, 1), (0, 2), (0, 1)] : List Cell).length - 1 = 3 ∧
    ([((0 : ℤ), (0 : ℤ)), (0, 1), (0, 2), (0, 1)] : List Cell).head?
      = some (carW.y, carW.x) ∧
    ([((0 : ℤ), (0 : ℤ)), (0, 1), (0, 2), (0, 1)] : List Cell).getLast?
      = some (carW.dest_y, carW.dest_x) ∧
    carW.status = .moving ∧
    pmC7x carW.car_id = some [(0, 0), (0, 1), (0, 2), (0, 1)] ∧
    (((move_one pmC7x)^[1]) carW).status = .arrived := by
  decide

/-- The planner unfolded: the final search state, the `dist[end] == inf`
test, and the reconstruction walk. -/
theorem dijkstra_eq (g : CostGrid) (s e : Cell) :
    dijkstra g s e =
      if (dloop g e (4 * (g.rows * g.cols) + 1) (initState g s)).dist e = ⊤ then []
      else
        match walkPrev (dloop g e (4 * (g.rows * g.cols) + 1) (initState g s)).prev s
            (g.rows * g.cols + 1) e [] with
        | none => []
        | some path => path := rfl

/-- C4 (amended): for every cost grid and in-bounds cells `s`, `e`, the
planner returns the empty path *iff* `e` cannot be reached from `s` by
4-connected moves that enter only passable in-bounds cells.  The start
cell's own passability is irrelevant (the search only charges the entry
cost of the cell being moved into), which is exactly where the claim as
stated fails — see the counterexample. -/
theorem dijkstra_empty_iff_reachable (g : CostGrid) (s e : Cell)
    (hs : inB g s) (he : inB g e) :
    dijkstra g s e = [] ↔ ¬ Reaches g s e := by
  have hinv := searchInv_init g s hs
  have hμ : (initState g s).heap.length + 4 * (initState g s).unvisited.length
      ≤ 4 * (g.rows * g.cols) + 1 := by
    dsimp [initState]
    rw [allCells_length]
    omega
  obtain ⟨hsound, hchains, hfinal⟩ :=
    dloop_post g s e (4 * (g.rows * g.cols) + 1) (initState g s) hinv hμ
  constructor
  · intro hemp hreach
    by_cases hdist : (dloop g e (4 * (g.rows * g.cols) + 1) (initState g s)).dist e = ⊤
    · rcases hfinal with hfe | ⟨hheap, hinv2⟩
      · exact hfe hdist
      · have hall : ∀ q, Reaches g s q →
            (dloop g e (4 * (g.rows * g.cols) + 1) (initState g s)).dist q ≠ ⊤ ∧ inB g q := by
          intro q hq
          induction hq with
          | refl => exact ⟨hinv2.dist_start, hs⟩
          | @tail b cc hab hbc ih =>
            obtain ⟨hfinb, hinBb⟩ := ih
            have hvisb : Visited
                (dloop g e (4 * (g.rows * g.cols) + 1) (initState g s)) b := by
              intro hmem
              obtain ⟨e2, he2, _⟩ := hinv2.frontier b hinBb hfinb hmem
              rw [hheap] at he2
              simp at he2
            obtain ⟨hcl1, hcl2⟩ := hinv2.closed b hinBb hvisb
            obtain ⟨⟨d2, hd2, hc2⟩, hin2, hcost2⟩ := hbc
            subst hc2
            exact ⟨hcl2 d2 hd2 hin2 hcost2, hin2⟩
        exact (hall e hreach).1 hdist
    · obtain ⟨l, hch, hnd, hinb⟩ := hchains e he hdist
      have hlle : l.length ≤ g.rows * g.cols := by
        have hsub : l ⊆ allCells g := fun x hx => (mem_allCells g x).mpr (hinb x hx)
        calc l.length ≤ (allCells g).length := (hnd.subperm hsub).length_le
          _ = g.rows * g.cols := allCells_length g
      have hwalk := walkPrev_of_chain _ s hch [] (g.rows * g.cols + 1) (by omega)
      rw [dijkstra_eq, if_neg hdist, hwalk] at hemp
      dsimp only at hemp
      obtain ⟨t, rfl⟩ := hch.head_cons
      simp at hemp
  · intro hnr
    have hdist : (dloop g e (4 * (g.rows * g.cols) + 1) (initState g s)).dist e = ⊤ := by
      by_contra hfin
      exact hnr (hsound e he hfin)
    rw [dijkstra_eq, if_pos hdist]

/-- Witness for C4 at a concrete grid: on the 2×2 all-road cost grid,
`(0,1)` is reachable from `(0,0)`, obtained by running the planner (which
returns a non-empty path) through the amended equivalence. -/
theorem dijkstra_empty_iff_reachable_witness :
    Reaches (build_cost_grid gridW fun _ => 0) (0, 0) (0, 1) := by
  have h := dijkstra_empty_iff_reachable (build_cost_grid gridW fun _ => 0) (0, 0) (0, 1)
    (by decide) (by decide)
  have hne : dijkstra (build_cost_grid gridW fun _ => 0) (0, 0) (0, 1) ≠ [] := by decide
  exact not_not.mp (fun hnr => hne (h.mpr hnr))

/-- Counterexample for C4 as stated: on a 1×1 grid whose only cell is
impassable, the planner called with `start = end` on that cell returns the
non-empty path `[(0,0)]`, yet no *passable* 4-connected route exists (the
claim demands an empty result whenever the end lies on an impassable
cell). -/
theorem dijkstra_empty_iff_counterexample :
    dijkstra gridC4 (0, 0) (0, 0) = [(0, 0)] ∧
    ¬ PassReaches gridC4 (0, 0) (0, 0) ∧
    ¬ (dijkstra gridC4 (0, 0) (0, 0) = [] ↔ ¬ PassReaches gridC4 (0, 0) (0, 0)) := by
  have h1 : dijkstra gridC4 (0, 0) (0, 0) = [(0, 0)] := by decide
  have h2 : ¬ PassReaches gridC4 (0, 0) (0, 0) := by
    intro hpr
    exact hpr.1 rfl
  exact ⟨h1, h2, fun hiff => by
    have := hiff.mpr h2
    rw [h1] at this
    exact List.noConfusion this⟩
